import Mathlib

/-!
# Verification of `MultiSetMap.h`

Shallow embedding of the single-header C++ container `MultiSetMap<Key, Value,
MapCompare, SetCompare>` (src/MultiSetMap.h) and proofs about it.

Modelling choices:
* `std::map<Key, std::set<Value, SetCompare>, MapCompare>` is modelled as an
  association list `List (K × List V)` kept sorted (strictly, by the key
  comparator) — the standard functional model of an ordered search tree.
  A `std::set` is likewise a sorted duplicate-free `List V`.
* Comparators are boolean relations `ltK : K → K → Bool`,
  `ltV : V → V → Bool`, as `std::less`-style functors.  Equivalence of two
  elements is "neither compares less than the other", as in the standard
  library.  Properties the C++ standard requires of comparators (a strict
  weak order) are taken as hypotheses only where a proof needs them.
* `std::string` is a sequence of bytes; we model it as `List Nat`.
  `std::less<std::string>` is lexicographic comparison of bytes (`strLt`),
  `starts_with` is the byte-wise test `startsWith`, and the C-locale
  `std::tolower` maps bytes 65–90 to 97–122 and fixes everything else.
* The compile-time test `std::is_same<Key, std::string>` in `findByPrefix`
  is a fact about the instantiating types, passed in as a boolean flag
  `isString`, and the case-folding of the string branch as a function
  `lowerF` (instantiated with the real `lowerStr` for string keys).
-/

namespace MSM

variable {K V : Type}

/-- Comparator equivalence: neither argument compares less than the other
(`!comp(a,b) && !comp(b,a)`), the equality notion of `std::map`/`std::set`. -/
def eqv (lt : K → K → Bool) (a b : K) : Bool :=
  !lt a b && !lt b a

/-- `std::set<Value, SetCompare>::insert(value)` on the sorted-list model:
walk down the ordered structure, splice the value in at its position, and do
nothing when an equivalent element is already present. -/
def setInsert (ltV : V → V → Bool) (v : V) : List V → List V
  | [] => [v]
  | w :: t =>
    if ltV v w then v :: w :: t
    else if ltV w v then w :: setInsert ltV v t
    else w :: t

/-- `std::set<Value, SetCompare>::erase(value)`: remove the element
equivalent to `value` when one is present (a set holds at most one). -/
def setErase (ltV : V → V → Bool) (v : V) : List V → List V
  | [] => []
  | w :: t =>
    if eqv ltV v w then t
    else w :: setErase ltV v t

/-- The state of a `MultiSetMap`: its ordered map `map_` as a sorted
association list from keys to value sets. -/
abbrev State (K V : Type) : Type := List (K × List V)

/-- `MultiSetMap::add(key, value)` (line 58): `map_[key].insert(value)` —
find the entry equivalent to `key`, creating it at its sorted position with an
empty set when absent, and insert `value` into its set. -/
def add (ltK : K → K → Bool) (ltV : V → V → Bool) (k : K) (v : V) :
    State K V → State K V
  | [] => [(k, [v])]
  | e :: t =>
    if ltK k e.1 then (k, setInsert ltV v []) :: e :: t
    else if ltK e.1 k then e :: add ltK ltV k v t
    else (e.1, setInsert ltV v e.2) :: t

/-- `MultiSetMap::remove(key)` (line 67): `map_.erase(key)` — delete the
entry whose key is equivalent to `key`, if any. -/
def removeKey (ltK : K → K → Bool) (k : K) : State K V → State K V
  | [] => []
  | e :: t =>
    if eqv ltK k e.1 then t
    else e :: removeKey ltK k t

/-- `MultiSetMap::remove(key, value)` (lines 76–94): locate the entry for
`key` (do nothing when absent), erase `value` from its set, and drop the
entry when the set drained to empty. -/
def removeKV (ltK : K → K → Bool) (ltV : V → V → Bool) (k : K) (v : V) :
    State K V → State K V
  | [] => []
  | e :: t =>
    if eqv ltK k e.1 then
      if (setErase ltV v e.2).isEmpty then t
      else (e.1, setErase ltV v e.2) :: t
    else e :: removeKV ltK ltV k v t

/-- The shared empty-set sentinel `emptySet` (line 161). -/
def emptySet : List V := []

/-- `MultiSetMap::find(key)` (lines 101–105): the set of the entry
equivalent to `key`, or the `emptySet` sentinel when there is none. -/
def find (ltK : K → K → Bool) (k : K) : State K V → List V
  | [] => emptySet
  | e :: t =>
    if eqv ltK k e.1 then e.2
    else find ltK k t

/-- The case-sensitive branch of `findByPrefix` (lines 123–131):
`map_.lower_bound(prefix)` — skip, in sorted order, the keys that compare
less than the prefix — then scan forward while `it->first.starts_with(p)`. -/
def findByPrefixCS (ltK : K → K → Bool) (sw : K → K → Bool) (p : K)
    (s : State K V) : State K V :=
  (s.dropWhile (fun e => ltK e.1 p)).takeWhile (fun e => sw e.1 p)

/-- The case-insensitive branch of `findByPrefix` (lines 135–152): scan every
entry in map order, case-fold the stored key and the prefix with `lowerF`,
and emit the entry (with its original key) when the folded key starts with
the folded prefix. -/
def findByPrefixCI (sw : K → K → Bool) (lowerF : K → K) (p : K) :
    State K V → State K V
  | [] => []
  | e :: t =>
    if sw (lowerF e.1) (lowerF p) then e :: findByPrefixCI sw lowerF p t
    else findByPrefixCI sw lowerF p t

/-- `MultiSetMap::findByPrefix(prefix, caseSensitive)` (lines 116–156):
the case-sensitive lower-bound-and-scan, or — only when
`std::is_same<Key, std::string>` holds, which the flag `isString` records —
the case-insensitive full scan; any other invocation yields the empty
vector. -/
def findByPrefix (ltK : K → K → Bool) (sw : K → K → Bool) (isString : Bool)
    (lowerF : K → K) (p : K) (caseSensitive : Bool) (s : State K V) :
    State K V :=
  if caseSensitive then findByPrefixCS ltK sw p s
  else if isString then findByPrefixCI sw lowerF p s
  else []

/-! ## The `std::string` instantiation -/

/-- A byte string. -/
abbrev Str : Type := List Nat

/-- `std::less<std::string>`: lexicographic comparison of byte sequences. -/
def strLt : Str → Str → Bool
  | _, [] => false
  | [], _ :: _ => true
  | a :: s, b :: t =>
    if a < b then true
    else if b < a then false
    else strLt s t

/-- `std::string::starts_with`: `startsWith s p` holds when `p` is an
initial segment of `s`. -/
def startsWith : Str → Str → Bool
  | _, [] => true
  | [], _ :: _ => false
  | a :: s, b :: t =>
    if a = b then startsWith s t else false

/-- C-locale `std::tolower` on one byte. -/
def lowerByte (c : Nat) : Nat :=
  if 65 ≤ c ∧ c ≤ 90 then c + 32 else c

/-- The `std::transform` loop of the case-insensitive branch: case-fold every
byte of a string. -/
def lowerStr (s : Str) : Str := s.map lowerByte

/-! ## Operation sequences (for the no-empty-entry invariant) -/

/-- One call of the mutating interface. -/
inductive Op (K V : Type) : Type
  | add (k : K) (v : V) : Op K V
  | removeKey (k : K) : Op K V
  | removeKV (k : K) (v : V) : Op K V

/-- Apply one operation to a state. -/
def applyOp (ltK : K → K → Bool) (ltV : V → V → Bool) (s : State K V) :
    Op K V → State K V
  | Op.add k v => add ltK ltV k v s
  | Op.removeKey k => removeKey ltK k s
  | Op.removeKV k v => removeKV ltK ltV k v s

/-- Run a sequence of operations from the empty container. -/
def run (ltK : K → K → Bool) (ltV : V → V → Bool) (ops : List (Op K V)) :
    State K V :=
  ops.foldl (applyOp ltK ltV) []

/-! ## Template-parameter defaults (line 47)

`template <typename Key, typename Value, typename MapCompare = std::less<Key>,
typename SetCompare = std::less<Key>>` — the *source* defaults `SetCompare`,
the comparator of the value sets, to `std::less<Key>`, a comparator whose
argument type is `Key`.  We record the argument type of each default
comparator as a type-level function of the instantiating types. -/

/-- The argument type of the default `MapCompare = std::less<Key>`. -/
def defaultMapCompareDomain (Key : Type) (_Value : Type) : Type := Key

/-- The argument type of the default `SetCompare` as the source writes it
(line 47): `std::less<Key>` compares values of type `Key`. -/
def defaultSetCompareDomain (Key : Type) (_Value : Type) : Type := Key

/-- Modelled from the spec: "SetCompare: total-order comparator for Value
(default: natural ascending order)" — the default value comparator the spec
prescribes takes arguments of type `Value`. -/
def specSetCompareDomain (_Key : Type) (Value : Type) : Type := Value

/-! ## Comparator contracts and state invariants -/

/-- Asymmetry of a comparator: one half of the strict-weak-order contract
that `std::map` and `std::set` place on `MapCompare`/`SetCompare`. -/
def Asymm (lt : K → K → Bool) : Prop :=
  ∀ a b, lt a b = true → lt b a = false

/-- Transitivity of comparator equivalence: the other half of the
strict-weak-order contract. -/
def EqvTrans (lt : K → K → Bool) : Prop :=
  ∀ a b c, eqv lt a b = true → eqv lt b c = true → eqv lt a c = true

/-- The keys of a state are strictly sorted by the key comparator — the
search-tree invariant of `map_`. -/
def SortedKeys (ltK : K → K → Bool) (s : State K V) : Prop :=
  List.Pairwise (fun a b => ltK a.1 b.1 = true) s

/-- Every entry of a state carries a non-empty value set (invariant I1). -/
def NoEmptyEntries (s : State K V) : Prop := ∀ e ∈ s, e.2 ≠ ([] : List V)

/-- The default comparator `std::less<Nat>` used by concrete witnesses. -/
def natLt : Nat → Nat → Bool := fun a b => decide (a < b)

/-! ## Concrete byte strings used by witnesses -/

/-- The byte string "apple". -/
def appleS : Str := [97, 112, 112, 108, 101]

/-- The byte string "application". -/
def applicationS : Str := [97, 112, 112, 108, 105, 99, 97, 116, 105, 111, 110]

/-- The byte string "apply". -/
def applyS : Str := [97, 112, 112, 108, 121]

/-- The byte string "banana". -/
def bananaS : Str := [98, 97, 110, 97, 110, 97]

/-- The byte string "app". -/
def appS : Str := [97, 112, 112]

/-- The byte string "Apple". -/
def AppleS : Str := [65, 112, 112, 108, 101]

/-- The byte string "APPLICATION". -/
def APPLICATIONS : Str := [65, 80, 80, 76, 73, 67, 65, 84, 73, 79, 78]

/-! ## Basic comparator and set lemmas -/

theorem Asymm.not_lt_self {lt : K → K → Bool} (h : Asymm lt) (a : K) :
    lt a a = false := by
  cases hq : lt a a with
  | false => rfl
  | true => exact absurd (h a a hq) (by simp [hq])

theorem eqv_refl {lt : K → K → Bool} (h : Asymm lt) (a : K) :
    eqv lt a a = true := by
  simp [eqv, h.not_lt_self]

theorem natLt_asymm : Asymm natLt := by
  intro a b h
  simp [natLt] at h ⊢
  omega

theorem natLt_eqvTrans : EqvTrans natLt := by
  intro a b c h1 h2
  simp [eqv, natLt] at h1 h2 ⊢
  omega

theorem setInsert_ne_nil (ltV : V → V → Bool) (v : V) (l : List V) :
    setInsert ltV v l ≠ [] := by
  cases l with
  | nil => simp [setInsert]
  | cons w t =>
    simp only [setInsert]
    split
    · simp
    · split <;> simp

theorem setInsert_mem_eqv {ltV : V → V → Bool} {v : V} (hv : ltV v v = false)
    (l : List V) : ∃ w ∈ setInsert ltV v l, eqv ltV v w = true := by
  induction l with
  | nil => exact ⟨v, by simp [setInsert], by simp [eqv, hv]⟩
  | cons w t ih =>
    cases h1 : ltV v w with
    | true => exact ⟨v, by simp [setInsert, h1], by simp [eqv, hv]⟩
    | false =>
      cases h2 : ltV w v with
      | true =>
        obtain ⟨u, hu, he⟩ := ih
        exact ⟨u, by simp [setInsert, h1, h2, hu], he⟩
      | false => exact ⟨w, by simp [setInsert, h1, h2], by simp [eqv, h1, h2]⟩

theorem setInsert_idem {ltV : V → V → Bool} (hV : Asymm ltV) (v : V)
    (l : List V) : setInsert ltV v (setInsert ltV v l) = setInsert ltV v l := by
  induction l with
  | nil => simp [setInsert, hV.not_lt_self]
  | cons w t ih =>
    cases h1 : ltV v w with
    | true => simp [setInsert, h1, hV.not_lt_self]
    | false =>
      cases h2 : ltV w v with
      | true => simp [setInsert, h1, h2, ih]
      | false => simp [setInsert, h1, h2]

theorem setErase_eq_self {ltV : V → V → Bool} {v : V} {l : List V}
    (h : ∀ w ∈ l, eqv ltV v w = false) : setErase ltV v l = l := by
  induction l with
  | nil => rfl
  | cons w t ih =>
    have hw : eqv ltV v w = false := h w (List.mem_cons_self w t)
    simp [setErase, hw, ih fun u hu => h u (List.mem_cons_of_mem _ hu)]

theorem isEmpty_false_of_ne_nil {l : List V} (h : l ≠ []) :
    l.isEmpty = false := by
  cases l with
  | nil => exact absurd rfl h
  | cons x xs => rfl

/-! ## Branch equations of the operations -/

theorem add_cons_lt {ltK : K → K → Bool} {ltV : V → V → Bool} {k : K} {v : V}
    {a : K × List V} {t : State K V} (h1 : ltK k a.1 = true) :
    add ltK ltV k v (a :: t) = (k, setInsert ltV v []) :: a :: t := by
  simp [add, h1]

theorem add_cons_gt {ltK : K → K → Bool} {ltV : V → V → Bool} {k : K} {v : V}
    {a : K × List V} {t : State K V} (h1 : ltK k a.1 = false)
    (h2 : ltK a.1 k = true) :
    add ltK ltV k v (a :: t) = a :: add ltK ltV k v t := by
  simp [add, h1, h2]

theorem add_cons_eqv {ltK : K → K → Bool} {ltV : V → V → Bool} {k : K} {v : V}
    {a : K × List V} {t : State K V} (h1 : ltK k a.1 = false)
    (h2 : ltK a.1 k = false) :
    add ltK ltV k v (a :: t) = (a.1, setInsert ltV v a.2) :: t := by
  simp [add, h1, h2]

theorem removeKey_cons_eqv {ltK : K → K → Bool} {k : K} {a : K × List V}
    {t : State K V} (h1 : eqv ltK k a.1 = true) :
    removeKey ltK k (a :: t) = t := by
  simp [removeKey, h1]

theorem removeKey_cons_ne {ltK : K → K → Bool} {k : K} {a : K × List V}
    {t : State K V} (h1 : eqv ltK k a.1 = false) :
    removeKey ltK k (a :: t) = a :: removeKey ltK k t := by
  simp [removeKey, h1]

theorem removeKV_cons_eqv_drop {ltK : K → K → Bool} {ltV : V → V → Bool}
    {k : K} {v : V} {a : K × List V} {t : State K V}
    (h1 : eqv ltK k a.1 = true) (h2 : (setErase ltV v a.2).isEmpty = true) :
    removeKV ltK ltV k v (a :: t) = t := by
  simp [removeKV, h1, h2]

theorem removeKV_cons_eqv_keep {ltK : K → K → Bool} {ltV : V → V → Bool}
    {k : K} {v : V} {a : K × List V} {t : State K V}
    (h1 : eqv ltK k a.1 = true) (h2 : (setErase ltV v a.2).isEmpty = false) :
    removeKV ltK ltV k v (a :: t) = (a.1, setErase ltV v a.2) :: t := by
  simp [removeKV, h1, h2]

theorem removeKV_cons_ne {ltK : K → K → Bool} {ltV : V → V → Bool}
    {k : K} {v : V} {a : K × List V} {t : State K V}
    (h1 : eqv ltK k a.1 = false) :
    removeKV ltK ltV k v (a :: t) = a :: removeKV ltK ltV k v t := by
  simp [removeKV, h1]

theorem find_cons_eqv {ltK : K → K → Bool} {k : K} {a : K × List V}
    {t : State K V} (h1 : eqv ltK k a.1 = true) :
    find ltK k (a :: t) = a.2 := by
  simp [find, h1]

theorem find_cons_ne {ltK : K → K → Bool} {k : K} {a : K × List V}
    {t : State K V} (h1 : eqv ltK k a.1 = false) :
    find ltK k (a :: t) = find ltK k t := by
  simp [find, h1]

/-! ## The no-empty-entries invariant (claim C1) -/

theorem add_noEmptyEntries {ltK : K → K → Bool} {ltV : V → V → Bool}
    (k : K) (v : V) : ∀ {s : State K V}, NoEmptyEntries s →
    NoEmptyEntries (add ltK ltV k v s) := by
  intro s
  induction s with
  | nil =>
    intro _ e he
    simp [add] at he
    simp [he]
  | cons a t ih =>
    intro h e he
    have ht : NoEmptyEntries t := fun u hu => h u (List.mem_cons_of_mem _ hu)
    cases h1 : ltK k a.1 with
    | true =>
      rw [add_cons_lt h1] at he
      rcases List.mem_cons.mp he with heq | he2
      · rw [heq]
        exact setInsert_ne_nil ltV v []
      · exact h e he2
    | false =>
      cases h2 : ltK a.1 k with
      | true =>
        rw [add_cons_gt h1 h2] at he
        rcases List.mem_cons.mp he with heq | he2
        · rw [heq]
          exact h a (List.mem_cons_self a t)
        · exact ih ht e he2
      | false =>
        rw [add_cons_eqv h1 h2] at he
        rcases List.mem_cons.mp he with heq | he2
        · rw [heq]
          exact setInsert_ne_nil ltV v a.2
        · exact h e (List.mem_cons_of_mem _ he2)

theorem removeKey_noEmptyEntries {ltK : K → K → Bool} (k : K) :
    ∀ {s : State K V}, NoEmptyEntries s →
    NoEmptyEntries (removeKey ltK k s) := by
  intro s
  induction s with
  | nil => intro h; simpa [removeKey] using h
  | cons a t ih =>
    intro h e he
    have ht : NoEmptyEntries t := fun u hu => h u (List.mem_cons_of_mem _ hu)
    cases h1 : eqv ltK k a.1 with
    | true =>
      rw [removeKey_cons_eqv h1] at he
      exact h e (List.mem_cons_of_mem _ he)
    | false =>
      rw [removeKey_cons_ne h1] at he
      rcases List.mem_cons.mp he with heq | he2
      · rw [heq]
        exact h a (List.mem_cons_self a t)
      · exact ih ht e he2

theorem removeKV_noEmptyEntries {ltK : K → K → Bool} {ltV : V → V → Bool}
    (k : K) (v : V) : ∀ {s : State K V}, NoEmptyEntries s →
    NoEmptyEntries (removeKV ltK ltV k v s) := by
  intro s
  induction s with
  | nil => intro h; simpa [removeKV] using h
  | cons a t ih =>
    intro h e he
    have ht : NoEmptyEntries t := fun u hu => h u (List.mem_cons_of_mem _ hu)
    cases h1 : eqv ltK k a.1 with
    | true =>
      cases h2 : (setErase ltV v a.2).isEmpty with
      | true =>
        rw [removeKV_cons_eqv_drop h1 h2] at he
        exact h e (List.mem_cons_of_mem _ he)
      | false =>
        rw [removeKV_cons_eqv_keep h1 h2] at he
        rcases List.mem_cons.mp he with heq | he2
        · rw [heq]
          intro hx
          have hx2 : setErase ltV v a.2 = [] := hx
          rw [hx2] at h2
          simp at h2
        · exact h e (List.mem_cons_of_mem _ he2)
    | false =>
      rw [removeKV_cons_ne h1] at he
      rcases List.mem_cons.mp he with heq | he2
      · rw [heq]
        exact h a (List.mem_cons_self a t)
      · exact ih ht e he2

theorem applyOp_noEmptyEntries {ltK : K → K → Bool} {ltV : V → V → Bool}
    {s : State K V} (h : NoEmptyEntries s) :
    ∀ op : Op K V, NoEmptyEntries (applyOp ltK ltV s op)
  | Op.add k v => add_noEmptyEntries k v h
  | Op.removeKey k => removeKey_noEmptyEntries k h
  | Op.removeKV k v => removeKV_noEmptyEntries k v h

theorem foldl_noEmptyEntries {ltK : K → K → Bool} {ltV : V → V → Bool} :
    ∀ (ops : List (Op K V)) (s : State K V), NoEmptyEntries s →
    NoEmptyEntries (List.foldl (applyOp ltK ltV) s ops)
  | [], _, h => h
  | op :: ops, _, h => foldl_noEmptyEntries ops _ (applyOp_noEmptyEntries h op)

/-- C1: after any sequence of `add`/`remove` operations run from the empty
container, no key of the container maps to an empty value set — `remove`
drops an entry the instant its set drains, and `add` always leaves the
touched entry non-empty. -/
theorem C1_no_empty_entries {ltK : K → K → Bool} {ltV : V → V → Bool}
    (ops : List (Op K V)) : ∀ e ∈ run ltK ltV ops, e.2 ≠ ([] : List V) :=
  foldl_noEmptyEntries ops [] (fun e he => absurd he (List.not_mem_nil e))

/-- Witness for C1: the run of `add 1 10; remove (2); remove (1, 7)` holds
the entry `(1, [10])`, whose value set is non-empty. -/
theorem C1_no_empty_entries_witness :
    ((1 : Nat), [(10 : Nat)]) ∈
      run natLt natLt [Op.add 1 10, Op.removeKey 2, Op.removeKV 1 7] ∧
    ([(10 : Nat)] : List Nat) ≠ [] :=
  ⟨by decide,
    @C1_no_empty_entries Nat Nat natLt natLt
      [Op.add 1 10, Op.removeKey 2, Op.removeKV 1 7] (1, [10]) (by decide)⟩

/-! ## Add/find consistency (claim C5) -/

/-- C5: immediately after `add(k, v)`, `find(k)` holds an element
comparator-equal to `v` (neither compares less than the other under
`SetCompare`), in every container state. -/
theorem C5_add_find_contains {ltK : K → K → Bool} {ltV : V → V → Bool}
    (hK : Asymm ltK) (hV : Asymm ltV) (k : K) (v : V) (s : State K V) :
    ∃ w ∈ find ltK k (add ltK ltV k v s), eqv ltV v w = true := by
  induction s with
  | nil => exact ⟨v, by simp [add, find, eqv_refl hK k], eqv_refl hV v⟩
  | cons a t ih =>
    cases h1 : ltK k a.1 with
    | true =>
      rw [add_cons_lt h1, find_cons_eqv (eqv_refl hK k)]
      exact ⟨v, by simp [setInsert], eqv_refl hV v⟩
    | false =>
      cases h2 : ltK a.1 k with
      | true =>
        have he : eqv ltK k a.1 = false := by simp [eqv, h2]
        rw [add_cons_gt h1 h2, find_cons_ne he]
        exact ih
      | false =>
        have he : eqv ltK k a.1 = true := by simp [eqv, h1, h2]
        rw [add_cons_eqv h1 h2]
        have he2 : eqv ltK k (a.1, setInsert ltV v a.2).1 = true := he
        rw [find_cons_eqv he2]
        exact setInsert_mem_eqv (hV.not_lt_self v) a.2

/-- Witness for C5 at `Key = Value = Nat` with the default comparator:
after `add(1, 5)` on the empty container, `find(1)` holds an element
equivalent to `5`. -/
theorem C5_add_find_contains_witness :
    Asymm natLt ∧
    ∃ w ∈ find natLt 1 (add natLt natLt 1 5 []), eqv natLt 5 w = true :=
  ⟨natLt_asymm, C5_add_find_contains natLt_asymm natLt_asymm 1 5 []⟩

/-! ## Idempotent add (claim C8) -/

/-- C8: `add(k, v)` twice in succession produces the same container state —
hence the same `find` results for every key — as `add(k, v)` once:
re-adding a value comparator-equal to an existing member changes nothing. -/
theorem C8_add_idempotent {ltK : K → K → Bool} {ltV : V → V → Bool}
    (hK : Asymm ltK) (hV : Asymm ltV) (k : K) (v : V) (s : State K V) :
    add ltK ltV k v (add ltK ltV k v s) = add ltK ltV k v s := by
  induction s with
  | nil => simp [add, hK.not_lt_self, setInsert, hV.not_lt_self]
  | cons a t ih =>
    cases h1 : ltK k a.1 with
    | true => simp [add, h1, hK.not_lt_self, setInsert, hV.not_lt_self]
    | false =>
      cases h2 : ltK a.1 k with
      | true => simp [add, h1, h2, ih]
      | false => simp [add, h1, h2, setInsert_idem hV]

/-- Witness for C8 at `Key = Value = Nat` with the default comparator, on a
state already holding the key. -/
theorem C8_add_idempotent_witness :
    Asymm natLt ∧
    add natLt natLt 1 5 (add natLt natLt 1 5 [(1, [5, 9])])
      = add natLt natLt 1 5 [(1, [5, 9])] :=
  ⟨natLt_asymm, C8_add_idempotent natLt_asymm natLt_asymm 1 5 [(1, [5, 9])]⟩

/-! ## Totality of find (claim C6) -/

/-- C6: `find` is total — on every state it returns the value set stored
for the key when an equivalent key is present, and the empty-set sentinel
when none is; it signals absence no other way. -/
theorem C6_find_total {ltK : K → K → Bool} (hT : EqvTrans ltK)
    {s : State K V} (hs : SortedKeys ltK s) (k : K) :
    ((∀ e ∈ s, eqv ltK k e.1 = false) → find ltK k s = emptySet) ∧
    (∀ k2 vs, (k2, vs) ∈ s → eqv ltK k k2 = true → find ltK k s = vs) := by
  induction s with
  | nil => exact ⟨fun _ => rfl, fun k2 vs h => absurd h (List.not_mem_nil _)⟩
  | cons a t ih =>
    have hs2 : SortedKeys ltK t := (List.pairwise_cons.mp hs).2
    have hlt : ∀ e ∈ t, ltK a.1 e.1 = true := (List.pairwise_cons.mp hs).1
    obtain ⟨ihA, ihP⟩ := ih hs2
    constructor
    · intro hall
      have h1 : eqv ltK k a.1 = false := hall a (List.mem_cons_self a t)
      rw [find_cons_ne h1]
      exact ihA (fun e he => hall e (List.mem_cons_of_mem _ he))
    · intro k2 vs hmem hk2
      cases h1 : eqv ltK k a.1 with
      | true =>
        rw [find_cons_eqv h1]
        rcases List.mem_cons.mp hmem with heq | hmem2
        · rw [← heq]
        · have hsym : eqv ltK a.1 k = true := by
            simp [eqv] at h1 ⊢
            exact ⟨h1.2, h1.1⟩
          have htr : eqv ltK a.1 k2 = true := hT a.1 k k2 hsym hk2
          have hl : ltK a.1 k2 = true := hlt (k2, vs) hmem2
          simp [eqv, hl] at htr
      | false =>
        rcases List.mem_cons.mp hmem with heq | hmem2
        · rw [← heq] at h1
          exact absurd hk2 (by simp [h1])
        · rw [find_cons_ne h1]
          exact ihP k2 vs hmem2 hk2

/-- Witness for C6 at `Key = Nat, Value = Nat` on the sorted state
`[(1, [5]), (2, [7])]`. -/
theorem C6_find_total_witness :
    EqvTrans natLt ∧ SortedKeys natLt [(1, [5]), ((2 : Nat), [(7 : Nat)])] ∧
    (((∀ e ∈ [(1, [5]), ((2 : Nat), [(7 : Nat)])], eqv natLt 2 e.1 = false) →
        find natLt 2 [(1, [5]), ((2 : Nat), [(7 : Nat)])] = emptySet) ∧
      (∀ k2 vs, (k2, vs) ∈ [(1, [5]), ((2 : Nat), [(7 : Nat)])] →
        eqv natLt 2 k2 = true →
        find natLt 2 [(1, [5]), ((2 : Nat), [(7 : Nat)])] = vs)) :=
  ⟨natLt_eqvTrans, by simp [SortedKeys, natLt],
    C6_find_total natLt_eqvTrans (by simp [SortedKeys, natLt]) 2⟩

/-! ## Idempotent remove (claim C7) -/

/-- C7: on a container state whose entries are non-empty (every reachable
state, by C1), `remove(k)` with `k` absent leaves the state unchanged, and
`remove(k, v)` with `k` absent — or with `k` present but no member of its
set comparator-equal to `v` — leaves the state unchanged; neither call
fails. -/
theorem C7_remove_absent_noop {ltK : K → K → Bool} {ltV : V → V → Bool}
    (k : K) (v : V) {s : State K V} (hne : NoEmptyEntries s) :
    ((∀ e ∈ s, eqv ltK k e.1 = false) → removeKey ltK k s = s) ∧
    ((∀ e ∈ s, eqv ltK k e.1 = true → ∀ w ∈ e.2, eqv ltV v w = false) →
      removeKV ltK ltV k v s = s) := by
  induction s with
  | nil => exact ⟨fun _ => rfl, fun _ => rfl⟩
  | cons a t ih =>
    have hne2 : NoEmptyEntries t := fun u hu => hne u (List.mem_cons_of_mem _ hu)
    obtain ⟨ih1, ih2⟩ := ih hne2
    constructor
    · intro hall
      have h1 : eqv ltK k a.1 = false := hall a (List.mem_cons_self a t)
      rw [removeKey_cons_ne h1, ih1 (fun e he => hall e (List.mem_cons_of_mem _ he))]
    · intro hall
      cases h1 : eqv ltK k a.1 with
      | true =>
        have hvals : ∀ w ∈ a.2, eqv ltV v w = false :=
          hall a (List.mem_cons_self a t) h1
        have hE : setErase ltV v a.2 = a.2 := setErase_eq_self hvals
        have hIE : (setErase ltV v a.2).isEmpty = false := by
          rw [hE]
          exact isEmpty_false_of_ne_nil (hne a (List.mem_cons_self a t))
        rw [removeKV_cons_eqv_keep h1 hIE, hE]
      | false =>
        rw [removeKV_cons_ne h1,
          ih2 (fun e he => hall e (List.mem_cons_of_mem _ he))]

/-- Witness for C7 at `Key = Value = Nat` on the state `[(1, [5])]`: key `2`
is absent and value `9` is not a member under key `1`. -/
theorem C7_remove_absent_noop_witness :
    NoEmptyEntries [((1 : Nat), [(5 : Nat)])] ∧
    (((∀ e ∈ [((1 : Nat), [(5 : Nat)])], eqv natLt 2 e.1 = false) →
        removeKey natLt 2 [((1 : Nat), [(5 : Nat)])] = [(1, [5])]) ∧
      ((∀ e ∈ [((1 : Nat), [(5 : Nat)])], eqv natLt 2 e.1 = true →
          ∀ w ∈ e.2, eqv natLt 9 w = false) →
        removeKV natLt natLt 2 9 [((1 : Nat), [(5 : Nat)])] = [(1, [5])])) :=
  ⟨by simp [NoEmptyEntries],
    C7_remove_absent_noop 2 9 (by simp [NoEmptyEntries])⟩

/-! ## Lexicographic order and the starts-with predicate -/

theorem strLt_nil (a : Str) : strLt a [] = false := by
  cases a <;> rfl

theorem startsWith_nil (a : Str) : startsWith a [] = true := by
  cases a <;> rfl

theorem strLt_asymm : ∀ {a b : Str}, strLt a b = true → strLt b a = false := by
  intro a
  induction a with
  | nil =>
    intro b h
    cases b with
    | nil => simp [strLt] at h
    | cons y ys => rfl
  | cons x xs ih =>
    intro b h
    cases b with
    | nil => simp [strLt_nil] at h
    | cons y ys =>
      simp only [strLt] at h ⊢
      by_cases h1 : x < y
      · simp [h1, show ¬y < x by omega]
      · by_cases h2 : y < x
        · simp [h1, h2] at h
        · simp [h1, h2] at h ⊢
          exact ih h

theorem strLt_trans : ∀ {a b c : Str}, strLt a b = true → strLt b c = true →
    strLt a c = true := by
  intro a
  induction a with
  | nil =>
    intro b c h1 h2
    cases c with
    | nil =>
      cases b with
      | nil => simp [strLt] at h1
      | cons y ys => simp [strLt_nil] at h2
    | cons z zs => rfl
  | cons x xs ih =>
    intro b c h1 h2
    cases b with
    | nil => simp [strLt_nil] at h1
    | cons y ys =>
      cases c with
      | nil => simp [strLt_nil] at h2
      | cons z zs =>
        simp only [strLt] at h1 h2 ⊢
        by_cases hxy : x < y
        · by_cases hyz : y < z
          · simp [show x < z by omega]
          · by_cases hzy : z < y
            · simp [hyz, hzy] at h2
            · have hyz2 : y = z := by omega
              subst hyz2
              simp [hxy]
        · by_cases hyx : y < x
          · simp [hxy, hyx] at h1
          · have hxy2 : x = y := by omega
            subst hxy2
            simp [hxy] at h1
            by_cases hxz : x < z
            · simp [hxz]
            · by_cases hzx : z < x
              · simp [hxz, hzx] at h2
              · have hxz2 : x = z := by omega
                subst hxz2
                simp [hxz] at h2 ⊢
                exact ih h1 h2

theorem startsWith_not_lt : ∀ {a p : Str}, startsWith a p = true →
    strLt a p = false := by
  intro a
  induction a with
  | nil =>
    intro p h
    cases p with
    | nil => rfl
    | cons y ys => simp [startsWith] at h
  | cons x xs ih =>
    intro p h
    cases p with
    | nil => exact strLt_nil _
    | cons y ys =>
      simp only [startsWith] at h
      by_cases hxy : x = y
      · subst hxy
        simp at h
        simp only [strLt]
        simp [Nat.lt_irrefl, ih h]
      · simp [hxy] at h

theorem startsWith_between : ∀ {p x y : Str}, strLt x p = false →
    strLt y x = false → startsWith y p = true → startsWith x p = true := by
  intro p
  induction p with
  | nil => intro x y _ _ _; exact startsWith_nil x
  | cons c ps ih =>
    intro x y h1 h2 h3
    cases x with
    | nil => simp [strLt] at h1
    | cons a xs =>
      cases y with
      | nil => simp [startsWith] at h3
      | cons b ys =>
        simp only [startsWith] at h3 ⊢
        by_cases hbc : b = c
        · subst hbc
          simp at h3
          simp only [strLt] at h1 h2
          by_cases hab : a < b
          · simp [hab] at h1
          · by_cases hba : b < a
            · simp [hba] at h2
            · have hab2 : a = b := by omega
              subst hab2
              simp [Nat.lt_irrefl] at h1 h2
              simp [ih h1 h2 h3]
        · simp [hbc] at h3

/-! ## The case-sensitive scan returns exactly the matching range (claim C2) -/

theorem dropWhile_not_lt (p : Str) :
    ∀ {s : State Str V}, SortedKeys strLt s →
      ∀ e ∈ List.dropWhile (fun e => strLt e.1 p) s, strLt e.1 p = false := by
  intro s
  induction s with
  | nil => intro _ e he; simp at he
  | cons a t ih =>
    intro hs e he
    have hs2 : SortedKeys strLt t := (List.pairwise_cons.mp hs).2
    have hlt : ∀ e ∈ t, strLt a.1 e.1 = true := (List.pairwise_cons.mp hs).1
    cases h1 : strLt a.1 p with
    | true =>
      rw [List.dropWhile_cons] at he
      simp only [h1] at he
      simp at he
      exact ih hs2 e he
    | false =>
      rw [List.dropWhile_cons] at he
      simp only [h1] at he
      simp at he
      rcases he with heq | he2
      · rw [heq]
        exact h1
      · cases h2 : strLt e.1 p with
        | false => rfl
        | true =>
          have h3 := strLt_trans (hlt e he2) h2
          simp [h1] at h3

theorem takeWhile_eq_filter_of_ge (p : Str) :
    ∀ {s : State Str V}, SortedKeys strLt s →
      (∀ e ∈ s, strLt e.1 p = false) →
      List.takeWhile (fun e => startsWith e.1 p) s
        = List.filter (fun e => startsWith e.1 p) s := by
  intro s
  induction s with
  | nil => intro _ _; rfl
  | cons a t ih =>
    intro hs hge
    have hs2 : SortedKeys strLt t := (List.pairwise_cons.mp hs).2
    have hlt : ∀ e ∈ t, strLt a.1 e.1 = true := (List.pairwise_cons.mp hs).1
    cases h1 : startsWith a.1 p with
    | true =>
      rw [List.takeWhile_cons, List.filter_cons]
      simp only [h1, if_pos, List.cons.injEq]
      simp only [true_and]
      exact ih hs2 (fun e he => hge e (List.mem_cons_of_mem _ he))
    | false =>
      rw [List.takeWhile_cons, List.filter_cons]
      simp only [h1]
      simp only [Bool.false_eq_true, if_neg, not_false_iff]
      symm
      rw [List.filter_eq_nil_iff]
      intro e he hsw
      have hax : strLt a.1 p = false := hge a (List.mem_cons_self a t)
      have hya : strLt e.1 a.1 = false := strLt_asymm (hlt e he)
      have h3 := startsWith_between hax hya (by simpa using hsw)
      simp [h1] at h3

/-- C2: over string keys with the default lexicographic comparator, on a
sorted map state, `findByPrefix(p, true)` — the lower-bound probe followed
by the forward starts-with scan — returns exactly the entries whose key
starts with `p`, each with its stored value set, in ascending key order. -/
theorem C2_findByPrefix_caseSensitive (p : Str) (s : State Str V)
    (hs : SortedKeys strLt s) :
    findByPrefix strLt startsWith true lowerStr p true s
      = List.filter (fun e => startsWith e.1 p) s ∧
    SortedKeys strLt (findByPrefix strLt startsWith true lowerStr p true s) := by
  have key : findByPrefix strLt startsWith true lowerStr p true s
      = List.filter (fun e => startsWith e.1 p) s := by
    show List.takeWhile _ (List.dropWhile _ s) = _
    conv_rhs =>
      rw [← List.takeWhile_append_dropWhile
        (p := fun e : Str × List V => strLt e.1 p) (l := s)]
    rw [List.filter_append]
    have hnil : List.filter (fun e => startsWith e.1 p)
        (List.takeWhile (fun e : Str × List V => strLt e.1 p) s) = [] := by
      rw [List.filter_eq_nil_iff]
      intro e he hsw
      have h1 : strLt e.1 p = true := by
        simpa using List.mem_takeWhile_imp he
      have h2 := startsWith_not_lt (a := e.1) (p := p) (by simpa using hsw)
      simp [h2] at h1
    rw [hnil, List.nil_append]
    have hsorted : SortedKeys strLt
        (List.dropWhile (fun e : Str × List V => strLt e.1 p) s) :=
      List.Pairwise.sublist (List.dropWhile_sublist _) hs
    exact takeWhile_eq_filter_of_ge p hsorted (dropWhile_not_lt p hs)
  refine ⟨key, ?_⟩
  rw [key]
  exact List.Pairwise.sublist (List.filter_sublist s) hs

/-- Witness for C2 on the spec's own vector: keys apple, application,
apply, banana; p = "app" selects the first three, in order. -/
theorem C2_findByPrefix_caseSensitive_witness :
    SortedKeys strLt
      [(appleS, [1]), (applicationS, [2]), (applyS, [3]), (bananaS, [(4 : Nat)])] ∧
    (findByPrefix strLt startsWith true lowerStr appS true
        [(appleS, [1]), (applicationS, [2]), (applyS, [3]), (bananaS, [(4 : Nat)])]
      = List.filter (fun e => startsWith e.1 appS)
          [(appleS, [1]), (applicationS, [2]), (applyS, [3]), (bananaS, [(4 : Nat)])] ∧
      SortedKeys strLt (findByPrefix strLt startsWith true lowerStr appS true
        [(appleS, [1]), (applicationS, [2]), (applyS, [3]), (bananaS, [(4 : Nat)])])) :=
  ⟨by unfold SortedKeys; decide,
    C2_findByPrefix_caseSensitive appS
      [(appleS, [1]), (applicationS, [2]), (applyS, [3]), (bananaS, [4])]
      (by unfold SortedKeys; decide)⟩

/-! ## The case-insensitive scan (claim C3) -/

theorem findByPrefixCI_eq_filter (sw : K → K → Bool) (lowerF : K → K)
    (p : K) : ∀ s : State K V, findByPrefixCI sw lowerF p s
      = List.filter (fun e => sw (lowerF e.1) (lowerF p)) s
  | [] => rfl
  | e :: t => by
    cases h : sw (lowerF e.1) (lowerF p) with
    | true =>
      rw [List.filter_cons]
      simp only [findByPrefixCI, h, if_pos]
      rw [findByPrefixCI_eq_filter sw lowerF p t]
    | false =>
      rw [List.filter_cons]
      simp only [findByPrefixCI, h]
      simp only [Bool.false_eq_true, if_neg, not_false_iff]
      exact findByPrefixCI_eq_filter sw lowerF p t

/-- C3: over string keys, `findByPrefix(p, false)` returns exactly the
entries whose key, after case-folding both the key and `p`, starts with the
folded `p`; each entry keeps its stored key with original case, and on a
sorted state the entries come out in ascending key order (the map's
iteration order). -/
theorem C3_findByPrefix_caseInsensitive (p : Str) (s : State Str V)
    (hs : SortedKeys strLt s) :
    findByPrefix strLt startsWith true lowerStr p false s
      = List.filter (fun e => startsWith (lowerStr e.1) (lowerStr p)) s ∧
    SortedKeys strLt (findByPrefix strLt startsWith true lowerStr p false s) := by
  have key : findByPrefix strLt startsWith true lowerStr p false s
      = List.filter (fun e => startsWith (lowerStr e.1) (lowerStr p)) s := by
    show findByPrefixCI _ _ _ s = _
    exact findByPrefixCI_eq_filter startsWith lowerStr p s
  refine ⟨key, ?_⟩
  rw [key]
  exact List.Pairwise.sublist (List.filter_sublist s) hs

/-- Witness for C3 on the spec's vector {"Apple", "APPLICATION", "apply"}
and p = "app": all three match with original casing preserved. -/
theorem C3_findByPrefix_caseInsensitive_witness :
    SortedKeys strLt
      [(APPLICATIONS, [2]), (AppleS, [1]), (applyS, [(3 : Nat)])] ∧
    (findByPrefix strLt startsWith true lowerStr appS false
        [(APPLICATIONS, [2]), (AppleS, [1]), (applyS, [(3 : Nat)])]
      = List.filter (fun e => startsWith (lowerStr e.1) (lowerStr appS))
          [(APPLICATIONS, [2]), (AppleS, [1]), (applyS, [(3 : Nat)])] ∧
      SortedKeys strLt (findByPrefix strLt startsWith true lowerStr appS false
        [(APPLICATIONS, [2]), (AppleS, [1]), (applyS, [(3 : Nat)])])) :=
  ⟨by unfold SortedKeys; decide,
    C3_findByPrefix_caseInsensitive appS
      [(APPLICATIONS, [2]), (AppleS, [1]), (applyS, [3])]
      (by unfold SortedKeys; decide)⟩

/-! ## Case-insensitive search on a non-string key type (claim C9) -/

/-- C9: on a container whose key type supports `starts_with` but is not
`std::string` (the `isString` flag is false), `findByPrefix(p, false)`
returns the empty sequence for every p and every state, without failing:
both branch guards fail and the untouched result vector is returned. -/
theorem C9_nonstring_caseInsensitive_empty (ltK sw : K → K → Bool)
    (lowerF : K → K) (p : K) (s : State K V) :
    findByPrefix ltK sw false lowerF p false s = [] := by
  simp [findByPrefix]

/-! ## Empty-string prefix returns the whole map (claim C10) -/

theorem takeWhile_startsWith_nil :
    ∀ s : State Str V,
      List.takeWhile (fun e => startsWith e.1 []) s = s
  | [] => rfl
  | a :: t => by
    rw [List.takeWhile_cons, if_pos (startsWith_nil a.1)]
    rw [takeWhile_startsWith_nil t]

/-- C10: with the empty-string prefix, the case-sensitive search returns
every entry of the (sorted) container, in ascending key order: the
lower-bound probe lands on the first entry and every key starts with the
empty string. -/
theorem C10_empty_string_returns_all (s : State Str V)
    (hs : SortedKeys strLt s) :
    findByPrefix strLt startsWith true lowerStr [] true s = s ∧
    SortedKeys strLt (findByPrefix strLt startsWith true lowerStr [] true s) := by
  have key : findByPrefix strLt startsWith true lowerStr [] true s = s := by
    show List.takeWhile _ (List.dropWhile _ s) = _
    have hdrop : List.dropWhile (fun e : Str × List V => strLt e.1 []) s = s := by
      cases s with
      | nil => rfl
      | cons a t =>
        rw [List.dropWhile_cons]
        simp [strLt_nil]
    rw [hdrop]
    exact takeWhile_startsWith_nil s
  refine ⟨key, ?_⟩
  rw [key]
  exact hs

/-- Witness for C10 on a two-entry sorted map. -/
theorem C10_empty_string_returns_all_witness :
    SortedKeys strLt [(appleS, [1]), (bananaS, [(2 : Nat)])] ∧
    (findByPrefix strLt startsWith true lowerStr [] true
        [(appleS, [1]), (bananaS, [(2 : Nat)])]
      = [(appleS, [1]), (bananaS, [(2 : Nat)])] ∧
      SortedKeys strLt (findByPrefix strLt startsWith true lowerStr [] true
        [(appleS, [1]), (bananaS, [(2 : Nat)])])) :=
  ⟨by unfold SortedKeys; decide,
    C10_empty_string_returns_all [(appleS, [1]), (bananaS, [2])]
      (by unfold SortedKeys; decide)⟩

/-! ## The default SetCompare compares keys, not values (claim C4) -/

/-- C4 (refutation of the claim on the code): the source's default
`SetCompare = std::less<Key>` (line 47) is a comparator whose argument type
is `Key`, while the spec prescribes the natural order on `Value`; at the
instantiation `Key = Nat, Value = Bool` the two domains differ, so the
default cannot be the natural ascending order on the `Value` type for all
`Value`. -/
theorem C4_default_setCompare_compares_keys :
    defaultSetCompareDomain Nat Bool ≠ specSetCompareDomain Nat Bool := by
  intro h
  have h2 : Nat = Bool := h
  have h3 : Infinite Bool := h2 ▸ (inferInstance : Infinite Nat)
  exact absurd (Finite.of_fintype Bool) h3.not_finite

end MSM
